import Mathlib

/-!
# Verification of the `core` package (lab7): counter, map, worker pool, pipeline

Shallow embedding of `src/lab7/project/sync.go` and `src/lab7/project/patterns.go`.

* `uint64` values are natural numbers reduced modulo `2 ^ 64`.
* Go `int` values are integers; the stage functions and tasks are parameters.
* An atomic operation, or a critical section held under the lock of the map, is
  one indivisible state transition; concurrent callers are modelled by the
  order in which their transitions are applied.
* `Pipeline` runs on a heap of cells with a bump allocator, so that the storage
  of the returned slice can be compared with the storage of the input. Inside a
  stage the goroutines run in an order chosen by a schedule, interleaved with
  the loop that starts them.
* `WorkerPool` is a transition system over the caller, the workers, the two
  buffered channels and the context; a schedule is a list of moves, and the
  two ready cases of a `select` are two different moves.
-/

namespace Core

/-! ## sync.go : ThreadSafeCounter -/

/-- Width modulus of `uint64`. -/
def uint64Size : Nat := 2 ^ 64

/-- The struct `ThreadSafeCounter`, with its one field `value atomic.Uint64`. -/
structure ThreadSafeCounter where
  value : Nat
deriving DecidableEq

/-- The constructor `NewThreadSafeCounter`: `&ThreadSafeCounter{}`, the zero value. -/
def NewThreadSafeCounter : ThreadSafeCounter := { value := 0 }

/-- The method `(*ThreadSafeCounter).Add`: `c.value.Add(delta)`, an atomic `uint64`
addition. -/
def ThreadSafeCounter.Add (c : ThreadSafeCounter) (delta : Nat) : ThreadSafeCounter :=
  { value := (c.value + delta) % uint64Size }

/-- The method `(*ThreadSafeCounter).Load`: `c.value.Load()`. -/
def ThreadSafeCounter.Load (c : ThreadSafeCounter) : Nat := c.value

/-- The calls `Add(d_1)`, ..., `Add(d_N)` applied in the order of the list. -/
def ThreadSafeCounter.addAll (c : ThreadSafeCounter) (ds : List Nat) : ThreadSafeCounter :=
  ds.foldl ThreadSafeCounter.Add c

/-! ## sync.go : ConcurrentMap -/

/-- The struct `ConcurrentMap`, with fields `mu sync.RWMutex` and
`items map[string]int`. The built-in map is a finite partial function from keys to values; the lock
makes every method body one transition. -/
structure ConcurrentMap where
  items : String → Option Int

/-- The constructor `NewConcurrentMap`: `items: make(map[string]int)`, the empty map. -/
def NewConcurrentMap : ConcurrentMap := { items := fun _ => none }

/-- The method `(*ConcurrentMap).Set`: `cm.items[key] = val` under the write lock. -/
def ConcurrentMap.Set (cm : ConcurrentMap) (key : String) (val : Int) : ConcurrentMap :=
  { items := fun k => if k = key then some val else cm.items k }

/-- The method `(*ConcurrentMap).Get`: `v, ok := cm.items[key]; return v, ok` under the read
lock; an absent key yields the zero value and `false`. -/
def ConcurrentMap.Get (cm : ConcurrentMap) (key : String) : Int × Bool :=
  match cm.items key with
  | some v => (v, true)
  | none => (0, false)

/-- A sequence of `Set` calls applied in the order of the list. -/
def ConcurrentMap.setAll (cm : ConcurrentMap) (ops : List (String × Int)) : ConcurrentMap :=
  ops.foldl (fun m op => m.Set op.1 op.2) cm

/-! ## patterns.go : memory model for slices -/

/-- The heap of `int` cells: `cells a` is the content of address `a`, and every
address below `next` has been handed out by the allocator. -/
structure Mem where
  cells : Nat → Int
  next : Nat

/-- A slice header `[]int`: the address of element 0 and the length. -/
structure Slice where
  base : Nat
  len : Nat
deriving DecidableEq

/-- The built-in `make([]int, n)`: a fresh zeroed array at the allocation frontier. -/
def Mem.make (m : Mem) (n : Nat) : Mem × Slice :=
  ({ cells := fun a => if m.next ≤ a ∧ a < m.next + n then 0 else m.cells a,
     next := m.next + n },
   { base := m.next, len := n })

/-- The index expression `s[i]` as a value (every use below has `i < len(s)`). -/
def Mem.read (m : Mem) (s : Slice) (i : Nat) : Int := m.cells (s.base + i)

/-- The assignment `s[i] = v` (every use below has `i < len(s)`, see `StageInv`). -/
def Mem.write (m : Mem) (s : Slice) (i : Nat) (v : Int) : Mem :=
  { m with cells := fun a => if a = s.base + i then v else m.cells a }

/-- The built-in `copy(dst, src)`: the first `min(len(dst), len(src))` elements. -/
def Mem.copy (m : Mem) (dst src : Slice) : Mem :=
  { m with cells := fun a =>
      if dst.base ≤ a ∧ a < dst.base + min dst.len src.len
      then m.cells (src.base + (a - dst.base)) else m.cells a }

/-- The elements of a slice, in index order. -/
def Mem.toList (m : Mem) (s : Slice) : List Int := (List.range s.len).map (m.read s)

/-- A heap holding exactly the array `l` at address 0. -/
def Mem.ofList (l : List Int) : Mem := { cells := fun a => l.getD a 0, next := l.length }

/-! ## patterns.go : Pipeline -/

/-- The state of one pass of `for _, fn := range fns`: the next index `i` of the
inner `for i, v := range data`, the goroutines started and not yet run (each
holds its arguments `idx`, `val`), and the heap. -/
structure StageState where
  i : Nat
  pending : List (Nat × Int)
  mem : Mem

/-- One scheduling decision inside a stage. While the loop has iterations left,
choice `0` (or any choice when no goroutine is waiting) performs the next
iteration: it reads `v := data[i]` and starts `go func(idx, val)(i, v)`.
Otherwise the waiting goroutine number `(c - 1) % len(pending)` runs
`temp[idx] = fn(val)` and finishes. When the loop is over and nothing is
waiting the state is final and stays as it is. -/
def stageStep (fn : Int → Int) (data temp : Slice) (c : Nat) (st : StageState) : StageState :=
  if st.i < data.len ∧ (c = 0 ∨ st.pending = []) then
    { st with i := st.i + 1, pending := st.pending ++ [(st.i, st.mem.read data st.i)] }
  else
    match st.pending.get? ((c - 1) % st.pending.length) with
    | some p =>
      { st with pending := st.pending.eraseIdx ((c - 1) % st.pending.length),
                mem := st.mem.write temp p.1 (fn p.2) }
    | none => st

/-- A run of `n` scheduling decisions taken from `sched` (choice `0` once the
list is used up). -/
def runStage (fn : Int → Int) (data temp : Slice) : Nat → List Nat → StageState → StageState
  | 0, _, st => st
  | n + 1, sched, st =>
    runStage fn data temp n sched.tail (stageStep fn data temp (sched.headD 0) st)

/-- The body of `for _, fn := range fns`: `temp := make([]int, len(data))`, the
`len(data)` goroutines interleaved with the loop that starts them, `wg.Wait()`
(reached after `len(data)` starts and `len(data)` completions), `data = temp`. -/
def stage (fn : Int → Int) (sched : List Nat) (m : Mem) (data : Slice) : Mem × Slice :=
  let a := m.make data.len
  ((runStage fn data a.2 (2 * data.len) sched { i := 0, pending := [], mem := a.1 }).mem, a.2)

/-- The loop `for _, fn := range fns`, one schedule per stage. -/
def stages : List (Int → Int) → List (List Nat) → Mem → Slice → Mem × Slice
  | [], _, m, data => (m, data)
  | fn :: fns, sched, m, data =>
    let r := stage fn (sched.headD []) m data
    stages fns sched.tail r.1 r.2

/-- The function `Pipeline(input, fns...)`: `data := make([]int, len(input))`,
`copy(data, input)`, the stages, `return data`. The result is the final heap
and the returned slice header. -/
def Pipeline (m : Mem) (input : Slice) (fns : List (Int → Int))
    (sched : List (List Nat)) : Mem × Slice :=
  let a := m.make input.len
  stages fns sched (a.1.copy a.2 input) a.2

/-- All stage functions applied in order: `fk(...f2(f1(x))...)`. -/
def applyAll (fns : List (Int → Int)) (x : Int) : Int := fns.foldl (fun y f => f y) x

/-- Two's-complement reduction of an integer to Go's 64-bit `int`. -/
def wrapInt (x : Int) : Int := (x + 2 ^ 63) % 2 ^ 64 - 2 ^ 63

/-- The three stages of `showPipeline` in main.go: `x + 10`, `x * 3`, `x - 5`. -/
def showPipelineStages : List (Int → Int) :=
  [fun x => wrapInt (x + 10), fun x => wrapInt (x * 3), fun x => wrapInt (x - 5)]

/-- Invariant of a stage started on heap `m1`: the waiting goroutines have distinct
indices below `i` and hold the original elements, every index below `i`
whose goroutine has run holds `fn` of the original element, and nothing
outside `temp` has changed. -/
structure StageInv (fn : Int → Int) (data temp : Slice) (m1 : Mem) (st : StageState) : Prop where
  i_le : st.i ≤ data.len
  nodup : (st.pending.map Prod.fst).Nodup
  pend : ∀ p ∈ st.pending, p.1 < st.i ∧ p.2 = m1.read data p.1
  written : ∀ j, j < st.i → j ∉ st.pending.map Prod.fst → st.mem.read temp j = fn (m1.read data j)
  frame : ∀ a, (a < temp.base ∨ temp.base + data.len ≤ a) → st.mem.cells a = m1.cells a
  next_eq : st.mem.next = m1.next

/-- Scheduling decisions left in a stage. -/
def stageMeasure (n : Nat) (st : StageState) : Nat := 2 * (n - st.i) + st.pending.length

/-! ## patterns.go : WorkerPool -/

/-- The type `Task`, `func() int`: a job is the value it produces when run. -/
abbrev Task := Unit → Int

/-- Program counter of the calling goroutine inside `WorkerPool`. -/
inductive MainPC where
  /-- At the head of `for i := 0; i < workers; i++` with this `i`. -/
  | spawn (i : Nat)
  /-- At the head of `for _, t := range tasks`, about to send task number `k`. -/
  | feed (k : Nat)
  /-- At the head of `for i := 0; i < len(tasks); i++` with this `i`. -/
  | collect (i : Nat)
  /-- After `return results`. -/
  | returned
deriving DecidableEq

/-- Program counter of one worker goroutine. -/
inductive WorkerPC where
  /-- At `for t := range taskCh`, waiting to receive. -/
  | ranging
  /-- Inside `select`, with `t()` already evaluated to `r`. -/
  | selecting (r : Int)
  /-- The goroutine has finished. -/
  | exited
deriving DecidableEq

/-- The shared state of one call of `WorkerPool`. -/
structure PoolState where
  pc : MainPC
  /-- Buffered content of `taskCh`, oldest first. -/
  taskCh : List Task
  /-- Whether `close(taskCh)` has run. -/
  closed : Bool
  /-- Buffered content of `resultCh`, oldest first. -/
  resultCh : List Int
  /-- The worker goroutines started so far. -/
  workers : List WorkerPC
  /-- The local slice `results`. -/
  results : List Int
  /-- Whether `ctx.Done()` is closed. -/
  done : Bool

/-- One atomic move of the system. -/
inductive Action where
  /-- The caller executes its next statement; in the collecting `select` it
  takes `case r := <-resultCh`. -/
  | main
  /-- The caller's `select` takes `case <-ctx.Done()`. -/
  | mainDone
  /-- Worker `j` executes its next statement; in its `select` it takes
  `case resultCh <- t()`. -/
  | worker (j : Nat)
  /-- The `select` of worker `j` takes `case <-ctx.Done()`. -/
  | workerDone (j : Nat)
  /-- The context is cancelled (or its deadline passes). -/
  | cancel
deriving DecidableEq

/-- The worker count in force after `if workers < 1 { workers = 4 }`. -/
def workerCount (workers : Int) : Nat := if workers < 1 then 4 else workers.toNat

/-- The state on entry, after both channels are made with capacity
`len(tasks)`; `ctxDone` tells whether the context is already cancelled. -/
def PoolState.init (ctxDone : Bool) : PoolState :=
  { pc := .spawn 0, taskCh := [], closed := false, resultCh := [], workers := [],
    results := [], done := ctxDone }

/-- The transition function: `none` when the action is blocked or impossible. -/
def step (tasks : List Task) (workers : Int) (a : Action) (s : PoolState) : Option PoolState :=
  match a with
  | .main =>
    match s.pc with
    | .spawn i =>
      if i < workerCount workers then
        some { s with workers := s.workers ++ [.ranging], pc := .spawn (i + 1) }
      else some { s with pc := .feed 0 }
    | .feed k =>
      match tasks.get? k with
      | some t =>
        if s.taskCh.length < tasks.length then
          some { s with taskCh := s.taskCh ++ [t], pc := .feed (k + 1) }
        else none
      | none => some { s with closed := true, results := [], pc := .collect 0 }
    | .collect i =>
      if i < tasks.length then
        match s.resultCh with
        | r :: rest =>
          some { s with resultCh := rest, results := s.results ++ [r], pc := .collect (i + 1) }
        | [] => none
      else some { s with pc := .returned }
    | .returned => none
  | .mainDone =>
    match s.pc with
    | .collect i => if i < tasks.length ∧ s.done = true then some { s with pc := .returned } else none
    | _ => none
  | .worker j =>
    match s.workers.get? j with
    | some .ranging =>
      match s.taskCh with
      | t :: rest =>
        some { s with taskCh := rest, workers := s.workers.set j (.selecting (t ())) }
      | [] => if s.closed = true then some { s with workers := s.workers.set j .exited } else none
    | some (.selecting r) =>
      if s.resultCh.length < tasks.length then
        some { s with resultCh := s.resultCh ++ [r], workers := s.workers.set j .ranging }
      else none
    | _ => none
  | .workerDone j =>
    match s.workers.get? j with
    | some (.selecting _) =>
      if s.done = true then some { s with workers := s.workers.set j .exited } else none
    | _ => none
  | .cancel => if s.done = true then none else some { s with done := true }

/-- The state after the actions of a schedule, `none` if one of them is not
possible when its turn comes. -/
def exec (tasks : List Task) (workers : Int) : List Action → PoolState → Option PoolState
  | [], s => some s
  | a :: as, s => (step tasks workers a s).bind (exec tasks workers as)

/-- The function `WorkerPool(ctx, tasks, workers)` under a schedule: the slice returned, when
the schedule is possible and the caller has returned by its end. -/
def WorkerPool (ctxDone : Bool) (tasks : List Task) (workers : Int)
    (sched : List Action) : Option (List Int) :=
  match exec tasks workers sched (PoolState.init ctxDone) with
  | some s => if s.pc = .returned then some s.results else none
  | none => none

/-- The results waiting inside the `select` of the workers. -/
def inFlight : List WorkerPC → List Int
  | [] => []
  | .selecting r :: ws => r :: inFlight ws
  | _ :: ws => inFlight ws

/-- The values the tasks produce when each is run on its own. -/
def standalone (tasks : List Task) : List Int := tasks.map fun t => t ()

/-- Number of moves a worker can still make without a new task. -/
def WorkerPC.weight : WorkerPC → Nat
  | .ranging => 1
  | .selecting _ => 2
  | .exited => 0

/-- Number of moves left to the caller, counting the moves it enables. -/
def MainPC.weight (M W : Nat) : MainPC → Nat
  | .spawn i => 2 * (W - i) + 3 * M + M + 3
  | .feed k => 3 * (M - k) + M + 2
  | .collect i => (M - i) + 1
  | .returned => 0

/-- A bound on the number of moves still possible from a state. -/
def PoolState.weight (tasks : List Task) (workers : Int) (s : PoolState) : Nat :=
  s.pc.weight tasks.length (workerCount workers) + 2 * s.taskCh.length
    + (s.workers.map WorkerPC.weight).sum + (if s.done = true then 0 else 1)

/-- A schedule in which the context never fires. -/
def quiet (sched : List Action) : Prop := Action.cancel ∉ sched

instance (sched : List Action) : Decidable (quiet sched) := by
  unfold quiet; infer_instance

/-- The tasks the caller has not yet sent on `taskCh`. -/
def unfed (tasks : List Task) : MainPC → List Task
  | .spawn _ => tasks
  | .feed k => tasks.drop k
  | _ => []

/-- Invariant of the reachable states of `WorkerPool`. -/
structure PoolInv (tasks : List Task) (workers : Int) (s : PoolState) : Prop where
  spawn : ∀ i, s.pc = .spawn i →
    s.workers.length = i ∧ i ≤ workerCount workers ∧ s.taskCh = [] ∧ s.closed = false ∧
      s.results = []
  feed : ∀ k, s.pc = .feed k →
    s.workers.length = workerCount workers ∧ s.taskCh.length ≤ k ∧ k ≤ tasks.length ∧
      s.closed = false ∧ s.results = []
  collect : ∀ i, s.pc = .collect i →
    s.workers.length = workerCount workers ∧ s.results.length = i ∧ i ≤ tasks.length
  returned : s.pc = .returned →
    s.workers.length = workerCount workers ∧ s.results.length ≤ tasks.length ∧
      (s.done = false → s.results.length = tasks.length)
  conserve : s.done = false → ∀ x : Int,
    s.results.count x + s.resultCh.count x + (inFlight s.workers).count x
      + (standalone s.taskCh).count x + (standalone (unfed tasks s.pc)).count x
      = (standalone tasks).count x
  exited : s.done = false → WorkerPC.exited ∈ s.workers → s.taskCh = [] ∧ s.closed = true

/-- The result a worker holds inside its `select`, if any. -/
def WorkerPC.held : WorkerPC → List Int
  | .selecting r => [r]
  | _ => []

/-- The batch of `showParallelTransform` in main.go cut to three values: the
cubes of 1, 2, 3. -/
def cubeTasks : List Task := [fun _ => 1 * 1 * 1, fun _ => 2 * 2 * 2, fun _ => 3 * 3 * 3]

/-- A run of `cubeTasks` on two workers without cancellation: the caller starts the
workers, sends the three tasks and closes the channel; worker 1 takes the
first task, worker 0 the second and publishes it first. -/
def cubeSchedule : List Action :=
  [.main, .main, .main, .main, .main, .main, .main, .worker 1, .worker 0, .worker 0,
   .worker 1, .worker 1, .main, .main, .worker 1, .main, .main]

/-- A run of `cubeTasks` with `workers = 0` in which the context fires while
worker 3 holds a result: that worker gives up, worker 1 publishes one result,
the caller collects it and then leaves through `ctx.Done()`. -/
def cancelSchedule : List Action :=
  [.main, .main, .main, .main, .main, .main, .main, .main, .main, .worker 3, .cancel,
   .workerDone 3, .worker 1, .worker 1, .main, .mainDone]

/-! ## Counter lemmas -/

theorem Add_value_lt (c : ThreadSafeCounter) (d : Nat) : (c.Add d).value < uint64Size :=
  Nat.mod_lt _ (by decide)

theorem addAll_value_mod (ds : List Nat) (c : ThreadSafeCounter) :
    (c.addAll ds).value % uint64Size = (c.value + ds.sum) % uint64Size := by
  induction ds generalizing c with
  | nil => simp [ThreadSafeCounter.addAll]
  | cons d ds ih =>
    have h := ih (c.Add d)
    simp only [ThreadSafeCounter.addAll, List.foldl_cons] at h ⊢
    rw [h, List.sum_cons]
    simp only [ThreadSafeCounter.Add]
    rw [Nat.mod_add_mod, Nat.add_assoc]

theorem addAll_value_lt (ds : List Nat) (c : ThreadSafeCounter) (hc : c.value < uint64Size) :
    (c.addAll ds).value < uint64Size := by
  induction ds generalizing c with
  | nil => simpa [ThreadSafeCounter.addAll] using hc
  | cons d ds ih =>
    simp only [ThreadSafeCounter.addAll, List.foldl_cons]
    exact ih (c.Add d) (Add_value_lt c d)

theorem addAll_fresh (ds : List Nat) :
    (NewThreadSafeCounter.addAll ds).Load = ds.sum % uint64Size := by
  have h := addAll_value_mod ds NewThreadSafeCounter
  have hlt := addAll_value_lt ds NewThreadSafeCounter (by decide)
  rw [Nat.mod_eq_of_lt hlt] at h
  simpa [ThreadSafeCounter.Load, NewThreadSafeCounter] using h

/-! ## Map lemmas -/

theorem setAll_other (ops : List (String × Int)) (cm : ConcurrentMap) (k : String)
    (h : ∀ op ∈ ops, op.1 ≠ k) : (cm.setAll ops).items k = cm.items k := by
  induction ops generalizing cm with
  | nil => rfl
  | cons op ops ih =>
    simp only [ConcurrentMap.setAll, List.foldl_cons]
    have h1 := ih (cm.Set op.1 op.2) (fun o ho => h o (List.mem_cons_of_mem _ ho))
    simp only [ConcurrentMap.setAll] at h1
    rw [h1]
    have hne : k ≠ op.1 := fun e => h op (List.mem_cons_self _ _) e.symm
    simp [ConcurrentMap.Set, hne]

theorem setAll_items_some (ops : List (String × Int)) (cm : ConcurrentMap) (k : String) (v : Int)
    (h : (cm.setAll ops).items k = some v) : cm.items k = some v ∨ (k, v) ∈ ops := by
  induction ops generalizing cm with
  | nil => exact Or.inl h
  | cons op ops ih =>
    simp only [ConcurrentMap.setAll, List.foldl_cons] at h
    rcases ih (cm.Set op.1 op.2) h with h1 | h1
    · by_cases hk : k = op.1
      · right
        simp only [ConcurrentMap.Set, hk, if_true, Option.some.injEq] at h1
        have : op = (k, v) := by rw [hk, ← h1]
        rw [this]
        exact List.mem_cons_self _ _
      · left
        simpa [ConcurrentMap.Set, hk] using h1
    · exact Or.inr (List.mem_cons_of_mem _ h1)

theorem Get_eq_true_iff (cm : ConcurrentMap) (k : String) (v : Int) :
    cm.Get k = (v, true) ↔ cm.items k = some v := by
  unfold ConcurrentMap.Get
  cases h : cm.items k <;> simp

/-! ## Claims on the counter and the map -/

/-- C5, as stated, fails: after `Add(2^64 - 1)` and `Add(1)` on a fresh counter
`Load()` returns 0, not the sum `2^64` of the two amounts. -/
theorem counter_sum_exact_fails :
    (NewThreadSafeCounter.addAll [2 ^ 64 - 1, 1]).Load = 0 ∧
      (NewThreadSafeCounter.addAll [2 ^ 64 - 1, 1]).Load ≠ [2 ^ 64 - 1, 1].sum := by
  decide

/-- C5, amended: after the additions `d_1 .. d_N` have been applied to a fresh
counter in any order, `Load()` returns the sum of the amounts reduced modulo
`2^64` (the sum itself whenever it is below `2^64`), the same value for every
order of application. -/
theorem counter_sum_any_order (ds ds' : List Nat) (hperm : ds'.Perm ds) :
    (NewThreadSafeCounter.addAll ds').Load = ds.sum % uint64Size ∧
      (NewThreadSafeCounter.addAll ds').Load = (NewThreadSafeCounter.addAll ds).Load ∧
      (ds.sum < uint64Size → (NewThreadSafeCounter.addAll ds').Load = ds.sum) := by
  have h1 : (NewThreadSafeCounter.addAll ds').Load = ds.sum % uint64Size := by
    rw [addAll_fresh, hperm.sum_eq]
  refine ⟨h1, ?_, ?_⟩
  · rw [h1, addAll_fresh]
  · intro hlt
    rw [h1, Nat.mod_eq_of_lt hlt]

/-- Witness of C5 (amended): the amounts 5, 7, 300 applied in the order 300, 5, 7. -/
theorem counter_sum_any_order_witness :
    [300, 5, 7].Perm [5, 7, 300] ∧
      (NewThreadSafeCounter.addAll [300, 5, 7]).Load = 312 ∧
      (NewThreadSafeCounter.addAll [5, 7, 300]).Load = 312 :=
  have hp : [300, 5, 7].Perm [5, 7, 300] := by decide
  ⟨hp, (counter_sum_any_order [5, 7, 300] [300, 5, 7] hp).2.2 (by decide), by decide⟩

/-- C10: `Add` is total and wraps: from any counter value `c`, `Load()` after
`Add(d)` is `(c + d) mod 2^64`, and after a sequence of additions on a fresh
counter `Load()` is the sum of the deltas modulo `2^64`. -/
theorem counter_add_wraps :
    (∀ (c : ThreadSafeCounter) (d : Nat), (c.Add d).Load = (c.Load + d) % 2 ^ 64) ∧
      (∀ ds : List Nat, (NewThreadSafeCounter.addAll ds).Load = ds.sum % 2 ^ 64) :=
  ⟨fun _ _ => rfl, fun ds => addAll_fresh ds⟩

/-- C6: a `Get(k)` after `Set(k, v)`, with only `Set` calls on other keys in
between, returns `(v, true)`, whatever the map held before. -/
theorem get_after_set (cm : ConcurrentMap) (k : String) (v : Int) (ops : List (String × Int))
    (hother : ∀ op ∈ ops, op.1 ≠ k) : ((cm.Set k v).setAll ops).Get k = (v, true) := by
  rw [Get_eq_true_iff, setAll_other ops _ k hother]
  simp [ConcurrentMap.Set]

/-- Witness of C6: key "a" holds 1, is overwritten with 2, then "b" and "c" are set. -/
theorem get_after_set_witness :
    (∀ op ∈ [("b", (3 : Int)), ("c", 4)], op.1 ≠ "a") ∧
      (((NewConcurrentMap.Set "a" 1).Set "a" 2).setAll [("b", 3), ("c", 4)]).Get "a" = (2, true) :=
  have h : ∀ op ∈ [("b", (3 : Int)), ("c", 4)], op.1 ≠ "a" := by decide
  ⟨h, get_after_set (NewConcurrentMap.Set "a" 1) "a" 2 [("b", 3), ("c", 4)] h⟩

/-- C7: on a map built from `NewConcurrentMap()` by `Set` calls, `Get(k)` returns
`(0, false)` when no `Set` was on `k`, and whenever it returns `(v, true)` the
call `Set(k, v)` is among the calls made. -/
theorem get_only_what_was_set (ops : List (String × Int)) (k : String) :
    ((∀ op ∈ ops, op.1 ≠ k) → (NewConcurrentMap.setAll ops).Get k = (0, false)) ∧
      (∀ v : Int, (NewConcurrentMap.setAll ops).Get k = (v, true) → (k, v) ∈ ops) := by
  constructor
  · intro h
    have h1 : (NewConcurrentMap.setAll ops).items k = none := setAll_other ops NewConcurrentMap k h
    simp only [ConcurrentMap.Get, h1]
  · intro v hv
    rw [Get_eq_true_iff] at hv
    rcases setAll_items_some ops NewConcurrentMap k v hv with h | h
    · simp [NewConcurrentMap] at h
    · exact h

/-- Witness of C7: after `Set("a", 1)`, `Set("b", 2)`, `Set("a", 5)` the key "z"
is absent and the key "a" holds 5, which was set. -/
theorem get_only_what_was_set_witness :
    (NewConcurrentMap.setAll [("a", 1), ("b", 2), ("a", 5)]).Get "z" = (0, false) ∧
      (NewConcurrentMap.setAll [("a", 1), ("b", 2), ("a", 5)]).Get "a" = (5, true) ∧
      ("a", (5 : Int)) ∈ [("a", (1 : Int)), ("b", 2), ("a", 5)] :=
  ⟨(get_only_what_was_set [("a", 1), ("b", 2), ("a", 5)] "z").1 (by decide), by decide,
    (get_only_what_was_set [("a", 1), ("b", 2), ("a", 5)] "a").2 5 (by decide)⟩

/-! ## Pipeline lemmas -/

theorem perm_cons_eraseIdx {α : Type} (l : List α) (k : Nat) (p : α) (h : l.get? k = some p) :
    l.Perm (p :: l.eraseIdx k) := by
  induction l generalizing k with
  | nil => simp at h
  | cons x xs ih =>
    cases k with
    | zero =>
      simp at h
      subst h
      simp
    | succ k =>
      simp at h
      have := ih k (by simpa using h)
      simp only [List.eraseIdx_cons_succ]
      exact (List.Perm.cons x this).trans (List.Perm.swap p x _)

theorem stageStep_inv (fn : Int → Int) (data temp : Slice) (m1 : Mem) (c : Nat) (st : StageState)
    (hd : data.base + data.len ≤ temp.base)
    (h : StageInv fn data temp m1 st) : StageInv fn data temp m1 (stageStep fn data temp c st) := by
  unfold stageStep
  split
  · rename_i hc
    have hi := hc.1
    have hrd : st.mem.read data st.i = m1.read data st.i := by
      unfold Mem.read
      exact h.frame _ (Or.inl (by omega))
    refine ⟨?_, ?_, ?_, ?_, h.frame, h.next_eq⟩
    · show st.i + 1 ≤ data.len
      omega
    · show ((st.pending ++ [(st.i, st.mem.read data st.i)]).map Prod.fst).Nodup
      rw [List.map_append, List.nodup_append]
      refine ⟨h.nodup, by simp, ?_⟩
      intro a ha hb
      simp only [List.map_cons, List.map_nil, List.mem_singleton] at hb
      subst hb
      rcases List.mem_map.1 ha with ⟨p, hp, hpa⟩
      have := (h.pend p hp).1
      omega
    · intro p hp
      show p.1 < st.i + 1 ∧ _
      rcases List.mem_append.1 hp with hp | hp
      · have := h.pend p hp
        exact ⟨by omega, this.2⟩
      · simp only [List.mem_singleton] at hp
        subst hp
        exact ⟨by simp, hrd⟩
    · intro j hj hnot
      have hj : j < st.i + 1 := hj
      have hnot : j ∉ (st.pending ++ [(st.i, st.mem.read data st.i)]).map Prod.fst := hnot
      rw [List.map_append, List.mem_append] at hnot
      push_neg at hnot
      have hne : j ≠ st.i := by
        intro e
        exact hnot.2 (by simp [e])
      exact h.written j (by omega) hnot.1
  · split
    · rename_i p hp
      have hperm := perm_cons_eraseIdx _ _ _ hp
      have hperm1 : (st.pending.map Prod.fst).Perm
          (p.1 :: (st.pending.eraseIdx ((c - 1) % st.pending.length)).map Prod.fst) := by
        simpa using hperm.map Prod.fst
      have hnd := (hperm1.nodup_iff).1 h.nodup
      rw [List.nodup_cons] at hnd
      have hpmem : p ∈ st.pending := hperm.mem_iff.2 (List.mem_cons_self _ _)
      have hpi := h.pend p hpmem
      refine ⟨h.i_le, hnd.2, ?_, ?_, ?_, h.next_eq⟩
      · intro q hq
        exact h.pend q (hperm.mem_iff.2 (List.mem_cons_of_mem _ hq))
      · intro j hj hnot
        show (if temp.base + j = temp.base + p.1 then fn p.2 else st.mem.cells (temp.base + j)) = _
        by_cases hjp : j = p.1
        · subst hjp
          simp [hpi.2]
        · have : ¬ temp.base + j = temp.base + p.1 := by omega
          rw [if_neg this]
          have hnot1 : j ∉ st.pending.map Prod.fst := by
            intro hm
            rcases List.mem_cons.1 (hperm1.mem_iff.1 hm) with hm | hm
            · exact hjp hm
            · exact hnot hm
          exact h.written j hj hnot1
      · intro a ha
        show (if a = temp.base + p.1 then fn p.2 else st.mem.cells a) = _
        have hlt : p.1 < data.len := lt_of_lt_of_le hpi.1 h.i_le
        have : ¬ a = temp.base + p.1 := by omega
        rw [if_neg this]
        exact h.frame a ha
    · exact h

theorem stageStep_measure (fn : Int → Int) (data temp : Slice) (c : Nat) (st : StageState) :
    stageMeasure data.len (stageStep fn data temp c st) = stageMeasure data.len st - 1 := by
  unfold stageStep stageMeasure
  split
  · rename_i hc
    simp only [List.length_append, List.length_singleton]
    omega
  · rename_i hc
    split
    · rename_i p hp
      have hlt : (c - 1) % st.pending.length < st.pending.length := by
        rcases List.get?_eq_some.1 hp with ⟨h, _⟩
        exact h
      simp only [List.length_eraseIdx, hlt, if_true]
      omega
    · rename_i hp
      have hnil : st.pending = [] := by
        by_contra hne
        have hpos : 0 < st.pending.length := List.length_pos.2 hne
        have hlt := Nat.mod_lt (c - 1) hpos
        rw [List.get?_eq_none] at hp
        omega
      have hi : ¬ st.i < data.len := fun hi => hc ⟨hi, Or.inr hnil⟩
      simp only [hnil, List.length_nil]
      omega

theorem runStage_measure (fn : Int → Int) (data temp : Slice) (n : Nat) (sched : List Nat)
    (st : StageState) :
    stageMeasure data.len (runStage fn data temp n sched st) = stageMeasure data.len st - n := by
  induction n generalizing sched st with
  | zero => rfl
  | succ n ih =>
    simp only [runStage]
    rw [ih, stageStep_measure]
    omega

theorem runStage_inv (fn : Int → Int) (data temp : Slice) (m1 : Mem) (n : Nat) (sched : List Nat)
    (st : StageState) (hd : data.base + data.len ≤ temp.base)
    (h : StageInv fn data temp m1 st) : StageInv fn data temp m1 (runStage fn data temp n sched st) := by
  induction n generalizing sched st with
  | zero => exact h
  | succ n ih =>
    simp only [runStage]
    exact ih _ _ (stageStep_inv fn data temp m1 _ st hd h)

/-- What one stage does to the heap. -/
theorem stage_spec (fn : Int → Int) (sched : List Nat) (m : Mem) (data : Slice)
    (hwf : data.base + data.len ≤ m.next) :
    (stage fn sched m data).2 = { base := m.next, len := data.len } ∧
      (stage fn sched m data).1.next = m.next + data.len ∧
      (∀ a, a < m.next → (stage fn sched m data).1.cells a = m.cells a) ∧
      (∀ j, j < data.len →
        (stage fn sched m data).1.read (stage fn sched m data).2 j = fn (m.read data j)) := by
  have hinit : StageInv fn data (m.make data.len).2 (m.make data.len).1
      { i := 0, pending := [], mem := (m.make data.len).1 } :=
    ⟨Nat.zero_le _, by simp, by simp, by simp, fun _ _ => rfl, rfl⟩
  have hinv := runStage_inv fn data (m.make data.len).2 (m.make data.len).1 (2 * data.len) sched _
    (by simpa [Mem.make] using hwf) hinit
  have hmeas := runStage_measure fn data (m.make data.len).2 (2 * data.len) sched
    { i := 0, pending := [], mem := (m.make data.len).1 }
  have hm0 : stageMeasure data.len
      (runStage fn data (m.make data.len).2 (2 * data.len) sched
        { i := 0, pending := [], mem := (m.make data.len).1 }) = 0 := by
    rw [hmeas]; simp [stageMeasure]
  unfold stageMeasure at hm0
  have hi := hinv.i_le
  have hpl : (runStage fn data (m.make data.len).2 (2 * data.len) sched
      { i := 0, pending := [], mem := (m.make data.len).1 }).pending = [] :=
    List.length_eq_zero.1 (by omega)
  have hmk : ∀ a, a < m.next → (m.make data.len).1.cells a = m.cells a := by
    intro a ha
    simp only [Mem.make]
    rw [if_neg (by omega)]
  refine ⟨rfl, ?_, ?_, ?_⟩
  · show (runStage _ _ _ _ _ _).mem.next = _
    rw [hinv.next_eq]; rfl
  · intro a ha
    show (runStage _ _ _ _ _ _).mem.cells a = _
    rw [hinv.frame a (Or.inl (by simpa [Mem.make] using ha)), hmk a ha]
  · intro j hj
    show (runStage _ _ _ _ _ _).mem.read (m.make data.len).2 j = _
    rw [hinv.written j (by omega) (by rw [hpl]; simp)]
    unfold Mem.read
    rw [hmk _ (by omega)]

theorem applyAll_cons (f : Int → Int) (fns : List (Int → Int)) (x : Int) :
    applyAll (f :: fns) x = applyAll fns (f x) := rfl

/-- What the loop over the stages does to the heap. -/
theorem stages_spec (fns : List (Int → Int)) (sched : List (List Nat)) (m : Mem) (data : Slice)
    (hwf : data.base + data.len ≤ m.next) :
    (stages fns sched m data).2.len = data.len ∧
      (stages fns sched m data).2.base + data.len ≤ (stages fns sched m data).1.next ∧
      m.next ≤ (stages fns sched m data).1.next ∧
      (∀ a, a < m.next → (stages fns sched m data).1.cells a = m.cells a) ∧
      (∀ j, j < data.len →
        (stages fns sched m data).1.read (stages fns sched m data).2 j
          = applyAll fns (m.read data j)) := by
  induction fns generalizing sched m data with
  | nil => exact ⟨rfl, hwf, le_refl _, fun _ _ => rfl, fun _ _ => rfl⟩
  | cons fn fns ih =>
    obtain ⟨h1, h2, h3, h4⟩ := stage_spec fn (sched.headD []) m data hwf
    have hwf1 : (stage fn (sched.headD []) m data).2.base + (stage fn (sched.headD []) m data).2.len
        ≤ (stage fn (sched.headD []) m data).1.next := by
      rw [h1, h2]
    obtain ⟨g1, g2, g3, g4, g5⟩ := ih sched.tail _ _ hwf1
    have hl : (stage fn (sched.headD []) m data).2.len = data.len := by rw [h1]
    simp only [stages]
    refine ⟨g1.trans hl, ?_, ?_, ?_, ?_⟩
    · rw [← hl]; exact g2
    · omega
    · intro a ha
      rw [g4 a (by omega), h3 a ha]
    · intro j hj
      rw [g5 j (by omega), h4 j hj, applyAll_cons]

/-- What `Pipeline` does to the heap. -/
theorem Pipeline_spec (m : Mem) (input : Slice) (fns : List (Int → Int)) (sched : List (List Nat))
    (hwf : input.base + input.len ≤ m.next) :
    (Pipeline m input fns sched).2.len = input.len ∧
      m.next ≤ (Pipeline m input fns sched).1.next ∧
      (∀ a, a < m.next → (Pipeline m input fns sched).1.cells a = m.cells a) ∧
      (∀ j, j < input.len →
        (Pipeline m input fns sched).1.read (Pipeline m input fns sched).2 j
          = applyAll fns (m.read input j)) := by
  have hwf1 : (m.make input.len).2.base + (m.make input.len).2.len
      ≤ ((m.make input.len).1.copy (m.make input.len).2 input).next := le_refl _
  obtain ⟨g1, _, g3, g4, g5⟩ := stages_spec fns sched _ _ hwf1
  unfold Pipeline
  refine ⟨g1, ?_, ?_, ?_⟩
  · have : m.next ≤ ((m.make input.len).1.copy (m.make input.len).2 input).next := by
      show m.next ≤ m.next + input.len
      omega
    exact le_trans this g3
  · intro a ha
    have hlt : a < ((m.make input.len).1.copy (m.make input.len).2 input).next := by
      show a < m.next + input.len
      omega
    rw [g4 a hlt]
    simp only [Mem.copy, Mem.make]
    rw [if_neg (by omega), if_neg (by omega)]
  · intro j hj
    rw [g5 j hj]
    congr 1
    simp only [Mem.read, Mem.copy, Mem.make, Nat.min_self]
    rw [if_pos (by omega), if_neg (by omega)]
    congr 1
    omega

theorem stages_len (fns : List (Int → Int)) (sched : List (List Nat)) (m : Mem) (data : Slice) :
    (stages fns sched m data).2.len = data.len := by
  induction fns generalizing sched m data with
  | nil => rfl
  | cons fn fns ih =>
    simp only [stages]
    rw [ih]
    rfl

theorem Pipeline_len (m : Mem) (input : Slice) (fns : List (Int → Int)) (sched : List (List Nat)) :
    (Pipeline m input fns sched).2.len = input.len := by
  unfold Pipeline
  rw [stages_len]
  rfl

theorem toList_eq_map (m m' : Mem) (s s' : Slice) (f : Int → Int) (hlen : s'.len = s.len)
    (h : ∀ i, i < s.len → m'.read s' i = f (m.read s i)) :
    m'.toList s' = (m.toList s).map f := by
  unfold Mem.toList
  rw [hlen, List.map_map]
  apply List.map_congr_left
  intro i hi
  exact h i (List.mem_range.1 hi)

/-! ## Claims on Pipeline -/

/-- C1: `Pipeline(input, f1, ..., fk)` returns a sequence whose element at every
index `i < N` is `fk(...f1(input[i]))`, whatever the interleaving of the
goroutines; for `[1,2,3,4]` and the stages `x+10`, `x*3`, `x-5` it returns
`[28,31,34,37]`. -/
theorem Pipeline_applies_stages_in_order (m : Mem) (input : Slice) (fns : List (Int → Int))
    (sched : List (List Nat)) (hwf : input.base + input.len ≤ m.next) :
    (∀ i, i < input.len →
        (Pipeline m input fns sched).1.read (Pipeline m input fns sched).2 i
          = applyAll fns (m.read input i)) ∧
      (Pipeline m input fns sched).1.toList (Pipeline m input fns sched).2
        = (m.toList input).map (applyAll fns) ∧
      (∀ order : List (List Nat),
        (Pipeline (Mem.ofList [1, 2, 3, 4]) { base := 0, len := 4 } showPipelineStages order).1.toList
          (Pipeline (Mem.ofList [1, 2, 3, 4]) { base := 0, len := 4 } showPipelineStages order).2
          = [28, 31, 34, 37]) := by
  refine ⟨(Pipeline_spec m input fns sched hwf).2.2.2, ?_, ?_⟩
  · exact toList_eq_map _ _ _ _ _ (Pipeline_len m input fns sched)
      (Pipeline_spec m input fns sched hwf).2.2.2
  · intro order
    rw [toList_eq_map (Mem.ofList [1, 2, 3, 4]) _ { base := 0, len := 4 } _
      (applyAll showPipelineStages) (Pipeline_len _ _ _ _)
      (Pipeline_spec _ _ _ _ (by decide)).2.2.2]
    decide

/-- Witness of C1: the call made by `showPipeline`, with the goroutines of each
stage run in three different orders. -/
theorem Pipeline_applies_stages_in_order_witness :
    (0 + 4 ≤ (Mem.ofList [1, 2, 3, 4]).next) ∧
      (Pipeline (Mem.ofList [1, 2, 3, 4]) { base := 0, len := 4 } showPipelineStages
          [[3, 0, 2, 0, 0, 7], [1], [0, 0, 0, 0, 4, 1]]).1.toList
        (Pipeline (Mem.ofList [1, 2, 3, 4]) { base := 0, len := 4 } showPipelineStages
          [[3, 0, 2, 0, 0, 7], [1], [0, 0, 0, 0, 4, 1]]).2 = [28, 31, 34, 37] :=
  ⟨by decide,
    (Pipeline_applies_stages_in_order (Mem.ofList [1, 2, 3, 4]) { base := 0, len := 4 }
      showPipelineStages [[3, 0, 2, 0, 0, 7], [1], [0, 0, 0, 0, 4, 1]] (by decide)).2.1.trans
      (by decide)⟩

/-- C8: with zero stages `Pipeline` returns a sequence of the same length and
the same elements as the input, stored at fresh addresses above everything
allocated before the call; the input cells are unchanged, and a later write
to the output does not change what the input holds. -/
theorem Pipeline_zero_stages_copies (m : Mem) (input : Slice) (sched : List (List Nat))
    (hwf : input.base + input.len ≤ m.next) :
    (Pipeline m input [] sched).2.len = input.len ∧
      (∀ i, i < input.len →
        (Pipeline m input [] sched).1.read (Pipeline m input [] sched).2 i = m.read input i) ∧
      m.next ≤ (Pipeline m input [] sched).2.base ∧
      input.base + input.len ≤ (Pipeline m input [] sched).2.base ∧
      (∀ i, i < input.len → (Pipeline m input [] sched).1.read input i = m.read input i) ∧
      (∀ j v i, j < (Pipeline m input [] sched).2.len → i < input.len →
        ((Pipeline m input [] sched).1.write (Pipeline m input [] sched).2 j v).read input i
          = m.read input i) := by
  obtain ⟨h1, _, h3, h4⟩ := Pipeline_spec m input [] sched hwf
  have hb : (Pipeline m input [] sched).2.base = m.next := rfl
  refine ⟨h1, h4, le_of_eq hb.symm, by rw [hb]; exact hwf, ?_, ?_⟩
  · intro i hi
    exact h3 _ (by omega)
  · intro j v i _ hi
    show (if input.base + i = (Pipeline m input [] sched).2.base + j then v
      else (Pipeline m input [] sched).1.cells (input.base + i)) = _
    rw [if_neg (by omega)]
    exact h3 _ (by omega)

/-- Witness of C8: the input `[9, 8, 7]`, and the output overwritten at index 1. -/
theorem Pipeline_zero_stages_copies_witness :
    (0 + 3 ≤ (Mem.ofList [9, 8, 7]).next) ∧
      (Pipeline (Mem.ofList [9, 8, 7]) { base := 0, len := 3 } [] []).2.len = 3 ∧
      (Pipeline (Mem.ofList [9, 8, 7]) { base := 0, len := 3 } [] []).1.toList
        (Pipeline (Mem.ofList [9, 8, 7]) { base := 0, len := 3 } [] []).2 = [9, 8, 7] ∧
      (((Pipeline (Mem.ofList [9, 8, 7]) { base := 0, len := 3 } [] []).1.write
        (Pipeline (Mem.ofList [9, 8, 7]) { base := 0, len := 3 } [] []).2 1 100).read
          { base := 0, len := 3 } 1 = 8) :=
  ⟨by decide,
    (Pipeline_zero_stages_copies (Mem.ofList [9, 8, 7]) { base := 0, len := 3 } [] (by decide)).1,
    by decide,
    (Pipeline_zero_stages_copies (Mem.ofList [9, 8, 7]) { base := 0, len := 3 } []
      (by decide)).2.2.2.2.2 1 100 1 (by decide) (by decide)⟩

/-- C9: for an input of `N` integers and any stages `Pipeline` returns a sequence
of exactly `N` integers; for an empty input it returns the empty sequence. -/
theorem Pipeline_preserves_length :
    (∀ (m : Mem) (input : Slice) (fns : List (Int → Int)) (sched : List (List Nat)),
        (Pipeline m input fns sched).2.len = input.len ∧
          ((Pipeline m input fns sched).1.toList (Pipeline m input fns sched).2).length
            = input.len) ∧
      (∀ (m : Mem) (base : Nat) (fns : List (Int → Int)) (sched : List (List Nat)),
        (Pipeline m { base := base, len := 0 } fns sched).1.toList
          (Pipeline m { base := base, len := 0 } fns sched).2 = []) := by
  constructor
  · intro m input fns sched
    refine ⟨Pipeline_len m input fns sched, ?_⟩
    simp [Mem.toList, Pipeline_len]
  · intro m base fns sched
    simp [Mem.toList, Pipeline_len]

/-! ## WorkerPool lemmas -/

theorem workerCount_pos (workers : Int) : 1 ≤ workerCount workers := by
  unfold workerCount
  split
  · decide
  · omega

theorem inFlight_append_ranging (ws : List WorkerPC) : inFlight (ws ++ [.ranging]) = inFlight ws := by
  induction ws with
  | nil => rfl
  | cons w ws ih => cases w <;> simp [inFlight, ih]

theorem inFlight_cons (w : WorkerPC) (ws : List WorkerPC) :
    inFlight (w :: ws) = w.held ++ inFlight ws := by
  cases w <;> rfl

theorem inFlight_set_count (ws : List WorkerPC) (j : Nat) (w w' : WorkerPC) (x : Int)
    (h : ws.get? j = some w) :
    (inFlight (ws.set j w')).count x + w.held.count x
      = (inFlight ws).count x + w'.held.count x := by
  induction ws generalizing j with
  | nil => simp at h
  | cons v vs ih =>
    cases j with
    | zero =>
      simp at h
      subst h
      simp only [List.set_cons_zero, inFlight_cons, List.count_append]
      omega
    | succ j =>
      have := ih j (by simpa using h)
      simp only [List.set_cons_succ, inFlight_cons, List.count_append]
      omega

theorem weight_set_sum (ws : List WorkerPC) (j : Nat) (w w' : WorkerPC)
    (h : ws.get? j = some w) :
    ((ws.set j w').map WorkerPC.weight).sum + w.weight
      = (ws.map WorkerPC.weight).sum + w'.weight := by
  induction ws generalizing j with
  | nil => simp at h
  | cons v vs ih =>
    cases j with
    | zero =>
      simp at h
      subst h
      simp only [List.set_cons_zero, List.map_cons, List.sum_cons]
      omega
    | succ j =>
      have := ih j (by simpa using h)
      simp only [List.set_cons_succ, List.map_cons, List.sum_cons]
      omega

theorem inFlight_ne_nil (ws : List WorkerPC) (h : inFlight ws ≠ []) :
    ∃ j r, ws.get? j = some (.selecting r) := by
  induction ws with
  | nil => exact absurd rfl h
  | cons w ws ih =>
    cases w with
    | selecting r => exact ⟨0, r, rfl⟩
    | ranging =>
      obtain ⟨j, r, hj⟩ := ih (by simpa [inFlight] using h)
      exact ⟨j + 1, r, by simpa using hj⟩
    | exited =>
      obtain ⟨j, r, hj⟩ := ih (by simpa [inFlight] using h)
      exact ⟨j + 1, r, by simpa using hj⟩

theorem inFlight_eq_nil (ws : List WorkerPC) (h : inFlight ws = []) (r : Int) :
    WorkerPC.selecting r ∉ ws := by
  induction ws with
  | nil => simp
  | cons w ws ih =>
    cases w with
    | selecting r' => simp [inFlight] at h
    | ranging =>
      have := ih (by simpa [inFlight] using h)
      simpa using this
    | exited =>
      have := ih (by simpa [inFlight] using h)
      simpa using this

theorem init_inv (tasks : List Task) (workers : Int) (ctxDone : Bool) :
    PoolInv tasks workers (PoolState.init ctxDone) := by
  refine ⟨?_, ?_, ?_, ?_, ?_, ?_⟩
  · intro i h
    simp only [PoolState.init, MainPC.spawn.injEq] at h
    subst h
    exact ⟨rfl, Nat.zero_le _, rfl, rfl, rfl⟩
  · intro k h; simp [PoolState.init] at h
  · intro k h; simp [PoolState.init] at h
  · intro h; simp [PoolState.init] at h
  · intro _ x
    simp [PoolState.init, inFlight, standalone, unfed]
  · intro _ h
    simp [PoolState.init] at h

theorem standalone_append (l : List Task) (t : Task) :
    standalone (l ++ [t]) = standalone l ++ [t ()] := by
  simp [standalone]

theorem standalone_cons (t : Task) (l : List Task) :
    standalone (t :: l) = t () :: standalone l := rfl

theorem drop_of_get? (tasks : List Task) (k : Nat) (t : Task) (h : tasks.get? k = some t) :
    tasks.drop k = t :: tasks.drop (k + 1) := by
  rcases List.get?_eq_some.1 h with ⟨hk, ht⟩
  rw [List.drop_eq_getElem_cons hk]
  simp at ht
  rw [ht]

theorem step_main_inv (tasks : List Task) (workers : Int) (s s' : PoolState)
    (h : PoolInv tasks workers s) (hs : step tasks workers .main s = some s') :
    PoolInv tasks workers s' := by
  simp only [step] at hs
  split at hs
  · rename_i i hpc
    obtain ⟨h1, h2, h3, h4, h5⟩ := h.spawn i hpc
    have hc := h.conserve
    have he := h.exited
    rw [hpc] at hc
    split at hs
    · rename_i hi
      injection hs with hs
      subst hs
      refine ⟨?_, ?_, ?_, ?_, ?_, ?_⟩
      · intro i' hi'
        simp only [MainPC.spawn.injEq] at hi'
        subst hi'
        simp only [List.length_append, List.length_singleton]
        exact ⟨by omega, by omega, h3, h4, h5⟩
      · intro k hk; simp at hk
      · intro k hk; simp at hk
      · intro hk; simp at hk
      · intro hd x
        simp only [inFlight_append_ranging]
        exact hc hd x
      · intro hd hm
        simp only [List.mem_append, List.mem_singleton] at hm
        rcases hm with hm | hm
        · exact he hd hm
        · cases hm
    · rename_i hi
      injection hs with hs
      subst hs
      refine ⟨?_, ?_, ?_, ?_, ?_, ?_⟩
      · intro k hk; simp at hk
      · intro k hk
        simp only [MainPC.feed.injEq] at hk
        subst hk
        exact ⟨by dsimp only; omega, by simp [h3], Nat.zero_le _, h4, h5⟩
      · intro k hk; simp at hk
      · intro hk; simp at hk
      · intro hd x
        simpa [unfed] using hc hd x
      · exact he
  · rename_i k hpc
    obtain ⟨h1, h2, h3, h4, h5⟩ := h.feed k hpc
    have hc := h.conserve
    have he := h.exited
    rw [hpc] at hc
    split at hs
    · rename_i t ht
      split at hs
      · rename_i hcap
        injection hs with hs
        subst hs
        have hk : k < tasks.length := (List.get?_eq_some.1 ht).1
        refine ⟨?_, ?_, ?_, ?_, ?_, ?_⟩
        · intro k hk; simp at hk
        · intro k' hk'
          simp only [MainPC.feed.injEq] at hk'
          subst hk'
          simp only [List.length_append, List.length_singleton]
          exact ⟨h1, by omega, by omega, h4, h5⟩
        · intro k hk; simp at hk
        · intro hk; simp at hk
        · intro hd x
          have := hc hd x
          simp only [unfed, drop_of_get? tasks k t ht, standalone_cons, List.count_cons] at this
          simp only [unfed, standalone_append, List.count_append, List.count_cons, List.count_nil]
          omega
        · intro hd hm
          have := (he hd hm).2
          rw [h4] at this
          cases this
      · cases hs
    · rename_i ht
      injection hs with hs
      subst hs
      have hk : tasks.length ≤ k := List.get?_eq_none.1 ht
      refine ⟨?_, ?_, ?_, ?_, ?_, ?_⟩
      · intro k hk; simp at hk
      · intro k hk; simp at hk
      · intro i hi
        simp only [MainPC.collect.injEq] at hi
        subst hi
        exact ⟨h1, rfl, Nat.zero_le _⟩
      · intro hk; simp at hk
      · intro hd x
        have := hc hd x
        simp only [unfed, List.drop_eq_nil_of_le hk, h5] at this
        simpa [unfed] using this
      · intro hd hm
        exact ⟨(he hd hm).1, rfl⟩
  · rename_i i hpc
    obtain ⟨h1, h2, h3⟩ := h.collect i hpc
    have hc := h.conserve
    have he := h.exited
    rw [hpc] at hc
    split at hs
    · rename_i hi
      split at hs
      · rename_i r rest hr
        injection hs with hs
        subst hs
        refine ⟨?_, ?_, ?_, ?_, ?_, ?_⟩
        · intro k hk; simp at hk
        · intro k hk; simp at hk
        · intro i' hi'
          simp only [MainPC.collect.injEq] at hi'
          subst hi'
          simp only [List.length_append, List.length_singleton]
          exact ⟨h1, by omega, by omega⟩
        · intro hk; simp at hk
        · intro hd x
          have := hc hd x
          simp only [hr, List.count_cons] at this
          simp only [unfed, List.count_append, List.count_cons, List.count_nil] at this ⊢
          omega
        · exact he
      · cases hs
    · rename_i hi
      injection hs with hs
      subst hs
      refine ⟨?_, ?_, ?_, ?_, ?_, ?_⟩
      · intro k hk; simp at hk
      · intro k hk; simp at hk
      · intro k hk; simp at hk
      · intro _
        exact ⟨h1, by dsimp only; omega, fun _ => by dsimp only; omega⟩
      · intro hd x
        simpa [unfed] using hc hd x
      · exact he
  · cases hs

theorem step_worker_inv (tasks : List Task) (workers : Int) (j : Nat) (s s' : PoolState)
    (h : PoolInv tasks workers s) (hs : step tasks workers (.worker j) s = some s') :
    PoolInv tasks workers s' := by
  simp only [step] at hs
  have hc := h.conserve
  have he := h.exited
  split at hs
  · rename_i hw
    split at hs
    · rename_i t rest ht
      injection hs with hs
      subst hs
      refine ⟨?_, ?_, ?_, ?_, ?_, ?_⟩
      · intro i hi
        have := (h.spawn i hi).2.2.1
        rw [ht] at this
        cases this
      · intro k hk
        obtain ⟨h1, h2, h3, h4, h5⟩ := h.feed k hk
        rw [ht] at h2
        simp only [List.length_cons] at h2
        exact ⟨by simpa using h1, by dsimp only; omega, h3, h4, h5⟩
      · intro i hi
        obtain ⟨h1, h2, h3⟩ := h.collect i hi
        exact ⟨by simpa using h1, h2, h3⟩
      · intro hr
        obtain ⟨h1, h2, h3⟩ := h.returned hr
        exact ⟨by simpa using h1, h2, h3⟩
      · intro hd x
        have h1 := hc hd x
        have h2 := inFlight_set_count s.workers j _ (.selecting (t ())) x hw
        simp only [ht, standalone_cons, List.count_cons] at h1
        simp only [WorkerPC.held, List.count_cons, List.count_nil] at h2
        dsimp only
        omega
      · intro hd hm
        rcases List.mem_or_eq_of_mem_set hm with hm | hm
        · have := (he hd hm).1
          rw [ht] at this
          cases this
        · cases hm
    · rename_i ht
      split at hs
      · rename_i hcl
        injection hs with hs
        subst hs
        refine ⟨?_, ?_, ?_, ?_, ?_, ?_⟩
        · intro i hi
          have := (h.spawn i hi).2.2.2.1
          rw [hcl] at this
          cases this
        · intro k hk
          have := (h.feed k hk).2.2.2.1
          rw [hcl] at this
          cases this
        · intro i hi
          obtain ⟨h1, h2, h3⟩ := h.collect i hi
          exact ⟨by simpa using h1, h2, h3⟩
        · intro hr
          obtain ⟨h1, h2, h3⟩ := h.returned hr
          exact ⟨by simpa using h1, h2, h3⟩
        · intro hd x
          have h1 := hc hd x
          have h2 := inFlight_set_count s.workers j _ .exited x hw
          simp only [WorkerPC.held, List.count_nil] at h2
          dsimp only
          omega
        · intro _ _
          exact ⟨ht, hcl⟩
      · cases hs
  · rename_i r hw
    split at hs
    · rename_i hcap
      injection hs with hs
      subst hs
      refine ⟨?_, ?_, ?_, ?_, ?_, ?_⟩
      · intro i hi
        obtain ⟨h1, h2, h3, h4, h5⟩ := h.spawn i hi
        exact ⟨by simpa using h1, h2, h3, h4, h5⟩
      · intro k hk
        obtain ⟨h1, h2, h3, h4, h5⟩ := h.feed k hk
        exact ⟨by simpa using h1, h2, h3, h4, h5⟩
      · intro i hi
        obtain ⟨h1, h2, h3⟩ := h.collect i hi
        exact ⟨by simpa using h1, h2, h3⟩
      · intro hr
        obtain ⟨h1, h2, h3⟩ := h.returned hr
        exact ⟨by simpa using h1, h2, h3⟩
      · intro hd x
        have h1 := hc hd x
        have h2 := inFlight_set_count s.workers j _ .ranging x hw
        simp only [WorkerPC.held, List.count_cons, List.count_nil] at h2
        simp only [List.count_append, List.count_cons, List.count_nil]
        omega
      · intro hd hm
        rcases List.mem_or_eq_of_mem_set hm with hm | hm
        · exact he hd hm
        · cases hm
    · cases hs
  · cases hs

theorem step_done_inv (tasks : List Task) (workers : Int) (a : Action) (s s' : PoolState)
    (ha : a = .mainDone ∨ (∃ j, a = .workerDone j) ∨ a = .cancel)
    (h : PoolInv tasks workers s) (hs : step tasks workers a s = some s') :
    PoolInv tasks workers s' := by
  rcases ha with rfl | ⟨j, rfl⟩ | rfl
  · simp only [step] at hs
    split at hs
    · rename_i i hpc
      split at hs
      · rename_i hi
        injection hs with hs
        subst hs
        obtain ⟨h1, h2, h3⟩ := h.collect i hpc
        refine ⟨?_, ?_, ?_, ?_, ?_, ?_⟩
        · intro k hk; simp at hk
        · intro k hk; simp at hk
        · intro k hk; simp at hk
        · intro _
          refine ⟨h1, by dsimp only; omega, fun hd => ?_⟩
          have := hi.2
          rw [this] at hd
          cases hd
        · intro hd
          have := hi.2
          rw [this] at hd
          cases hd
        · exact h.exited
      · cases hs
    · cases hs
  · simp only [step] at hs
    split at hs
    · rename_i r hw
      split at hs
      · rename_i hdone
        injection hs with hs
        subst hs
        refine ⟨?_, ?_, ?_, ?_, ?_, ?_⟩
        · intro i hi
          obtain ⟨h1, h2, h3, h4, h5⟩ := h.spawn i hi
          exact ⟨by simpa using h1, h2, h3, h4, h5⟩
        · intro k hk
          obtain ⟨h1, h2, h3, h4, h5⟩ := h.feed k hk
          exact ⟨by simpa using h1, h2, h3, h4, h5⟩
        · intro i hi
          obtain ⟨h1, h2, h3⟩ := h.collect i hi
          exact ⟨by simpa using h1, h2, h3⟩
        · intro hr
          obtain ⟨h1, h2, h3⟩ := h.returned hr
          exact ⟨by simpa using h1, h2, h3⟩
        · intro hd
          rw [hdone] at hd
          cases hd
        · intro hd
          rw [hdone] at hd
          cases hd
      · cases hs
    · cases hs
  · simp only [step] at hs
    split at hs
    · cases hs
    · injection hs with hs
      subst hs
      refine ⟨h.spawn, h.feed, h.collect, ?_, ?_, ?_⟩
      · intro hr
        obtain ⟨h1, h2, _⟩ := h.returned hr
        exact ⟨h1, h2, fun hd => by cases hd⟩
      · intro hd; cases hd
      · intro hd; cases hd

theorem step_inv (tasks : List Task) (workers : Int) (a : Action) (s s' : PoolState)
    (h : PoolInv tasks workers s) (hs : step tasks workers a s = some s') :
    PoolInv tasks workers s' := by
  cases a with
  | main => exact step_main_inv tasks workers s s' h hs
  | mainDone => exact step_done_inv tasks workers _ s s' (Or.inl rfl) h hs
  | worker j => exact step_worker_inv tasks workers j s s' h hs
  | workerDone j => exact step_done_inv tasks workers _ s s' (Or.inr (Or.inl ⟨j, rfl⟩)) h hs
  | cancel => exact step_done_inv tasks workers _ s s' (Or.inr (Or.inr rfl)) h hs

theorem exec_inv (tasks : List Task) (workers : Int) (acts : List Action) (s s' : PoolState)
    (h : PoolInv tasks workers s) (hs : exec tasks workers acts s = some s') :
    PoolInv tasks workers s' := by
  induction acts generalizing s with
  | nil =>
    simp only [exec, Option.some.injEq] at hs
    subst hs
    exact h
  | cons a acts ih =>
    simp only [exec] at hs
    cases h1 : step tasks workers a s with
    | none => rw [h1] at hs; cases hs
    | some s1 =>
      rw [h1] at hs
      exact ih s1 (step_inv tasks workers a s s1 h h1) hs

theorem step_weight (tasks : List Task) (workers : Int) (a : Action) (s s' : PoolState)
    (hs : step tasks workers a s = some s') :
    s'.weight tasks workers < s.weight tasks workers := by
  unfold PoolState.weight
  cases a with
  | main =>
    simp only [step] at hs
    split at hs
    · rename_i i hpc
      rw [hpc]
      split at hs
      · rename_i hi
        injection hs with hs
        subst hs
        simp only [MainPC.weight, List.map_append, List.sum_append, List.map_cons, List.map_nil,
          List.sum_cons, List.sum_nil, WorkerPC.weight]
        omega
      · injection hs with hs
        subst hs
        simp only [MainPC.weight]
        omega
    · rename_i k hpc
      rw [hpc]
      split at hs
      · rename_i t ht
        have hk : k < tasks.length := (List.get?_eq_some.1 ht).1
        split at hs
        · injection hs with hs
          subst hs
          simp only [MainPC.weight, List.length_append, List.length_singleton]
          omega
        · cases hs
      · injection hs with hs
        subst hs
        simp only [MainPC.weight]
        omega
    · rename_i i hpc
      rw [hpc]
      split at hs
      · rename_i hi
        split at hs
        · injection hs with hs
          subst hs
          simp only [MainPC.weight]
          omega
        · cases hs
      · injection hs with hs
        subst hs
        simp only [MainPC.weight]
        omega
    · cases hs
  | mainDone =>
    simp only [step] at hs
    split at hs
    · rename_i i hpc
      rw [hpc]
      split at hs
      · injection hs with hs
        subst hs
        simp only [MainPC.weight]
        omega
      · cases hs
    · cases hs
  | worker j =>
    simp only [step] at hs
    split at hs
    · rename_i hw
      split at hs
      · rename_i t rest ht
        injection hs with hs
        subst hs
        have := weight_set_sum s.workers j _ (.selecting (t ())) hw
        simp only [WorkerPC.weight] at this
        simp only [ht, List.length_cons]
        omega
      · split at hs
        · injection hs with hs
          subst hs
          have := weight_set_sum s.workers j _ .exited hw
          simp only [WorkerPC.weight] at this
          dsimp only
          omega
        · cases hs
    · rename_i r hw
      split at hs
      · injection hs with hs
        subst hs
        have := weight_set_sum s.workers j _ .ranging hw
        simp only [WorkerPC.weight] at this
        dsimp only
        omega
      · cases hs
    · cases hs
  | workerDone j =>
    simp only [step] at hs
    split at hs
    · rename_i r hw
      split at hs
      · injection hs with hs
        subst hs
        have := weight_set_sum s.workers j _ .exited hw
        simp only [WorkerPC.weight] at this
        dsimp only
        omega
      · cases hs
    · cases hs
  | cancel =>
    simp only [step] at hs
    split at hs
    · cases hs
    · rename_i hd
      injection hs with hs
      subst hs
      have hd' : s.done = false := by simpa using hd
      simp only [hd']
      simp

theorem exec_weight (tasks : List Task) (workers : Int) (acts : List Action) (s s' : PoolState)
    (hs : exec tasks workers acts s = some s') :
    acts.length + s'.weight tasks workers ≤ s.weight tasks workers := by
  induction acts generalizing s with
  | nil =>
    simp only [exec, Option.some.injEq] at hs
    subst hs
    simp
  | cons a acts ih =>
    simp only [exec] at hs
    cases h1 : step tasks workers a s with
    | none => rw [h1] at hs; cases hs
    | some s1 =>
      rw [h1] at hs
      have := ih s1 hs
      have := step_weight tasks workers a s s1 h1
      simp only [List.length_cons]
      omega

theorem exec_append (tasks : List Task) (workers : Int) (as bs : List Action) (s : PoolState) :
    exec tasks workers (as ++ bs) s = (exec tasks workers as s).bind (exec tasks workers bs) := by
  induction as generalizing s with
  | nil => rfl
  | cons a as ih =>
    simp only [List.cons_append, exec]
    cases step tasks workers a s with
    | none => rfl
    | some s1 => simpa using ih s1

theorem standalone_nil : standalone [] = [] := rfl

theorem standalone_length (l : List Task) : (standalone l).length = l.length := by
  unfold standalone
  exact List.length_map _ _

/-- No deadlock: before the caller has returned some move other than a
cancellation is possible. -/
theorem progress (tasks : List Task) (workers : Int) (s : PoolState)
    (h : PoolInv tasks workers s) (hpc : s.pc ≠ .returned) :
    ∃ a, a ≠ Action.cancel ∧ ∃ s', step tasks workers a s = some s' := by
  cases hp : s.pc with
  | returned => exact absurd hp hpc
  | spawn i =>
    refine ⟨.main, by simp, ?_⟩
    simp only [step, hp]
    split <;> exact ⟨_, rfl⟩
  | feed k =>
    obtain ⟨h1, h2, h3, h4, h5⟩ := h.feed k hp
    refine ⟨.main, by simp, ?_⟩
    simp only [step, hp]
    cases ht : tasks.get? k with
    | none => exact ⟨_, rfl⟩
    | some t =>
      have hk : k < tasks.length := (List.get?_eq_some.1 ht).1
      simp only
      rw [if_pos (by omega)]
      exact ⟨_, rfl⟩
  | collect i =>
    obtain ⟨h1, h2, h3⟩ := h.collect i hp
    by_cases hi : i < tasks.length
    · cases hr : s.resultCh with
      | cons r rest =>
        refine ⟨.main, by simp, ?_⟩
        simp only [step, hp, hr, if_pos hi]
        exact ⟨_, rfl⟩
      | nil =>
        cases hd : s.done with
        | true =>
          refine ⟨.mainDone, by simp, ?_⟩
          simp only [step, hp, hd, and_true, if_pos hi]
          exact ⟨_, rfl⟩
        | false =>
          have hc := h.conserve hd
          have hperm : (s.results ++ (inFlight s.workers ++ standalone s.taskCh)).Perm
              (standalone tasks) := by
            rw [List.perm_iff_count]
            intro x
            have := hc x
            simp only [hp, hr, unfed, standalone_nil, List.count_nil] at this
            simp only [List.count_append]
            omega
          have hlen := hperm.length_eq
          simp only [List.length_append, standalone_length] at hlen
          by_cases hf : inFlight s.workers = []
          · have htc : s.taskCh ≠ [] := by
              intro htc
              rw [hf, htc] at hlen
              simp only [List.length_nil] at hlen
              omega
            obtain ⟨t, rest, ht⟩ := List.exists_cons_of_ne_nil htc
            have hne : WorkerPC.exited ∉ s.workers := by
              intro hm
              have := (h.exited hd hm).1
              exact htc this
            have hpos : 0 < s.workers.length := by
              have := workerCount_pos workers
              omega
            have hw : s.workers.get? 0 = some .ranging := by
              cases hws : s.workers with
              | nil => rw [hws] at hpos; simp at hpos
              | cons w ws =>
                cases w with
                | ranging => rfl
                | selecting r =>
                  exact absurd (by rw [hws]; exact List.mem_cons_self _ _)
                    (inFlight_eq_nil s.workers hf r)
                | exited =>
                  exact absurd (by rw [hws]; exact List.mem_cons_self _ _) hne
            refine ⟨.worker 0, by simp, ?_⟩
            simp only [step, hw, ht]
            exact ⟨_, rfl⟩
          · obtain ⟨j, r, hj⟩ := inFlight_ne_nil s.workers hf
            refine ⟨.worker j, by simp, ?_⟩
            simp only [step, hj, hr, List.length_nil]
            rw [if_pos (by omega)]
            exact ⟨_, rfl⟩
    · refine ⟨.main, by simp, ?_⟩
      simp only [step, hp, if_neg hi]
      exact ⟨_, rfl⟩

theorem step_done_eq (tasks : List Task) (workers : Int) (a : Action) (s s' : PoolState)
    (ha : a ≠ .cancel) (hs : step tasks workers a s = some s') : s'.done = s.done := by
  cases a with
  | cancel => exact absurd rfl ha
  | main =>
    simp only [step] at hs
    repeat' split at hs
    all_goals (cases hs <;> rfl)
  | mainDone =>
    simp only [step] at hs
    repeat' split at hs
    all_goals (cases hs <;> rfl)
  | worker j =>
    simp only [step] at hs
    repeat' split at hs
    all_goals (cases hs <;> rfl)
  | workerDone j =>
    simp only [step] at hs
    repeat' split at hs
    all_goals (cases hs <;> rfl)

theorem exec_quiet_done (tasks : List Task) (workers : Int) (acts : List Action)
    (s s' : PoolState) (hq : quiet acts) (hs : exec tasks workers acts s = some s') :
    s'.done = s.done := by
  induction acts generalizing s with
  | nil =>
    simp only [exec, Option.some.injEq] at hs
    subst hs
    rfl
  | cons a acts ih =>
    simp only [exec] at hs
    have ha : a ≠ .cancel := fun e => hq (by rw [e]; exact List.mem_cons_self _ _)
    have hq' : quiet acts := fun hm => hq (List.mem_cons_of_mem _ hm)
    cases h1 : step tasks workers a s with
    | none => rw [h1] at hs; cases hs
    | some s1 =>
      rw [h1] at hs
      rw [ih s1 hq' hs, step_done_eq tasks workers a s s1 ha h1]

/-- From every reachable state the caller can be brought to `return` by moves
that do not involve a cancellation. -/
theorem can_return (tasks : List Task) (workers : Int) (n : Nat) (s : PoolState)
    (h : PoolInv tasks workers s) (hn : s.weight tasks workers ≤ n) :
    ∃ more s', quiet more ∧ exec tasks workers more s = some s' ∧ s'.pc = .returned := by
  induction n generalizing s with
  | zero =>
    by_cases hpc : s.pc = .returned
    · exact ⟨[], s, by simp [quiet], rfl, hpc⟩
    · obtain ⟨a, _, s1, h1⟩ := progress tasks workers s h hpc
      have := step_weight tasks workers a s s1 h1
      omega
  | succ n ih =>
    by_cases hpc : s.pc = .returned
    · exact ⟨[], s, by simp [quiet], rfl, hpc⟩
    · obtain ⟨a, ha, s1, h1⟩ := progress tasks workers s h hpc
      have hw := step_weight tasks workers a s s1 h1
      obtain ⟨more, s', hq, he, hr⟩ :=
        ih s1 (step_inv tasks workers a s s1 h h1) (by omega)
      refine ⟨a :: more, s', ?_, ?_, hr⟩
      · intro hm
        rcases List.mem_cons.1 hm with hm | hm
        · exact ha hm.symm
        · exact hq hm
      · simp only [exec, h1, Option.some_bind]
        exact he

theorem WorkerPool_eq_some (ctxDone : Bool) (tasks : List Task) (workers : Int)
    (sched : List Action) (rs : List Int) :
    WorkerPool ctxDone tasks workers sched = some rs ↔
      ∃ s, exec tasks workers sched (PoolState.init ctxDone) = some s ∧ s.pc = .returned ∧
        s.results = rs := by
  unfold WorkerPool
  cases exec tasks workers sched (PoolState.init ctxDone) with
  | none => simp
  | some s =>
    by_cases hp : s.pc = .returned
    · simp [hp]
    · simp [hp]

theorem returns_after (ctxDone : Bool) (tasks : List Task) (workers : Int) (sched : List Action)
    (hs : (exec tasks workers sched (PoolState.init ctxDone)).isSome) :
    ∃ more rs, quiet more ∧ WorkerPool ctxDone tasks workers (sched ++ more) = some rs := by
  obtain ⟨s, hs⟩ := Option.isSome_iff_exists.1 hs
  have hinv := exec_inv tasks workers sched _ s (init_inv tasks workers ctxDone) hs
  obtain ⟨more, s', hq, he, hr⟩ := can_return tasks workers _ s hinv (le_refl _)
  refine ⟨more, s'.results, hq, ?_⟩
  rw [WorkerPool_eq_some]
  exact ⟨s', by rw [exec_append, hs]; exact he, hr, rfl⟩

theorem step_workerCount (tasks : List Task) (w w' : Int) (hw : workerCount w = workerCount w')
    (a : Action) (s : PoolState) : step tasks w a s = step tasks w' a s := by
  cases a <;> simp only [step, hw]

theorem exec_workerCount (tasks : List Task) (w w' : Int) (hw : workerCount w = workerCount w')
    (acts : List Action) (s : PoolState) : exec tasks w acts s = exec tasks w' acts s := by
  induction acts generalizing s with
  | nil => rfl
  | cons a acts ih =>
    simp only [exec, step_workerCount tasks w w' hw]
    cases step tasks w' a s with
    | none => rfl
    | some s1 => exact ih s1

/-! ## Claims on WorkerPool -/

/-- C2: when the context never fires, every run of `WorkerPool` on `M` tasks ends
after a bounded number of moves with the caller returning, whatever the
interleaving and the worker count, and the slice returned has exactly `M`
elements which, as a multiset, are the values the tasks produce standalone. -/
theorem WorkerPool_without_cancellation (tasks : List Task) (workers : Int)
    (sched : List Action) (hq : quiet sched)
    (hs : (exec tasks workers sched (PoolState.init false)).isSome) :
    (∀ rs, WorkerPool false tasks workers sched = some rs →
        rs.length = tasks.length ∧ (↑rs : Multiset Int) = ↑(standalone tasks)) ∧
      sched.length ≤ (PoolState.init false).weight tasks workers ∧
      (∃ more rs, quiet more ∧ WorkerPool false tasks workers (sched ++ more) = some rs ∧
        rs.length = tasks.length ∧ (↑rs : Multiset Int) = ↑(standalone tasks)) := by
  have key : ∀ (acts : List Action) (rs : List Int), quiet acts →
      WorkerPool false tasks workers acts = some rs →
      rs.length = tasks.length ∧ (↑rs : Multiset Int) = ↑(standalone tasks) := by
    intro acts rs hqa hrs
    obtain ⟨s, he, hp, hr⟩ := (WorkerPool_eq_some _ _ _ _ _).1 hrs
    have hinv := exec_inv tasks workers acts _ s (init_inv tasks workers false) he
    have hd : s.done = false := exec_quiet_done tasks workers acts _ s hqa he
    have hlen := (hinv.returned hp).2.2 hd
    rw [hr] at hlen
    refine ⟨hlen, ?_⟩
    apply Multiset.eq_of_le_of_card_le
    · rw [Multiset.le_iff_count]
      intro x
      have := hinv.conserve hd x
      rw [hr] at this
      simp only [Multiset.coe_count]
      omega
    · simp only [Multiset.coe_card, standalone_length]
      omega
  obtain ⟨s, hs'⟩ := Option.isSome_iff_exists.1 hs
  refine ⟨fun rs => key sched rs hq, ?_, ?_⟩
  · have := exec_weight tasks workers sched _ s hs'
    omega
  · obtain ⟨more, rs, hqm, hrs⟩ := returns_after false tasks workers sched hs
    have hqq : quiet (sched ++ more) := by
      intro hm
      rcases List.mem_append.1 hm with hm | hm
      · exact hq hm
      · exact hqm hm
    exact ⟨more, rs, hqm, hrs, key _ rs hqq hrs⟩

/-- Witness of C2: three cube tasks on two workers; the results come back in
completion order `[8, 1, 27]`. -/
theorem WorkerPool_without_cancellation_witness :
    quiet cubeSchedule ∧
      WorkerPool false cubeTasks 2 cubeSchedule = some [8, 1, 27] ∧
      [8, 1, 27].length = cubeTasks.length ∧
      (↑[(8 : Int), 1, 27] : Multiset Int) = ↑(standalone cubeTasks) :=
  have hq : quiet cubeSchedule := by decide
  have hr : WorkerPool false cubeTasks 2 cubeSchedule = some [8, 1, 27] := by decide
  ⟨hq, hr,
    ((WorkerPool_without_cancellation cubeTasks 2 cubeSchedule hq (by decide)).1 _ hr).1,
    ((WorkerPool_without_cancellation cubeTasks 2 cubeSchedule hq (by decide)).1 _ hr).2⟩

/-- C3: for every batch of `M` tasks, worker count, initial state of the context
and interleaving (cancellation at any point or never), the slice `results`
never holds more than `M` elements, so the slice returned has length between
0 and `M`; and the caller can always still return. -/
theorem WorkerPool_result_length_le (ctxDone : Bool) (tasks : List Task) (workers : Int)
    (sched : List Action)
    (hs : (exec tasks workers sched (PoolState.init ctxDone)).isSome) :
    (∀ s, exec tasks workers sched (PoolState.init ctxDone) = some s →
        s.results.length ≤ tasks.length) ∧
      (∀ rs, WorkerPool ctxDone tasks workers sched = some rs → rs.length ≤ tasks.length) ∧
      (∃ more rs, WorkerPool ctxDone tasks workers (sched ++ more) = some rs ∧
        rs.length ≤ tasks.length) := by
  have key : ∀ (acts : List Action) (s : PoolState),
      exec tasks workers acts (PoolState.init ctxDone) = some s →
      s.results.length ≤ tasks.length := by
    intro acts s he
    have hinv := exec_inv tasks workers acts _ s (init_inv tasks workers ctxDone) he
    cases hp : s.pc with
    | spawn i => rw [(hinv.spawn i hp).2.2.2.2]; exact Nat.zero_le _
    | feed k => rw [(hinv.feed k hp).2.2.2.2]; exact Nat.zero_le _
    | collect i =>
      have := hinv.collect i hp
      omega
    | returned => exact (hinv.returned hp).2.1
  have key2 : ∀ (acts : List Action) (rs : List Int),
      WorkerPool ctxDone tasks workers acts = some rs → rs.length ≤ tasks.length := by
    intro acts rs hrs
    obtain ⟨s, he, _, hr⟩ := (WorkerPool_eq_some _ _ _ _ _).1 hrs
    rw [← hr]
    exact key acts s he
  refine ⟨key sched, key2 sched, ?_⟩
  obtain ⟨more, rs, _, hrs⟩ := returns_after ctxDone tasks workers sched hs
  exact ⟨more, rs, hrs, key2 _ rs hrs⟩

/-- Witness of C3: three tasks, the context fires after one task was taken; the
caller returns one result. -/
theorem WorkerPool_result_length_le_witness :
    (exec cubeTasks 0 cancelSchedule (PoolState.init false)).isSome ∧
      WorkerPool false cubeTasks 0 cancelSchedule = some [8] ∧
      [(8 : Int)].length ≤ cubeTasks.length :=
  have hr : WorkerPool false cubeTasks 0 cancelSchedule = some [8] := by decide
  ⟨by decide, hr,
    (WorkerPool_result_length_le false cubeTasks 0 cancelSchedule (by decide)).2.1 _ hr⟩

/-- C4: a `workers` argument below 1 (0 and negative values) makes `WorkerPool`
behave exactly as with `workers = 4`: the same states and the same returned
slice under every schedule; an argument of at least 1 is used unchanged; and
the number of worker goroutines started never exceeds the count in force
and equals it once the starting loop is over. -/
theorem WorkerPool_default_worker_count (ctxDone : Bool) (tasks : List Task) (workers : Int)
    (sched : List Action) :
    (workers < 1 → workerCount workers = 4 ∧
        WorkerPool ctxDone tasks workers sched = WorkerPool ctxDone tasks 4 sched) ∧
      WorkerPool ctxDone tasks 0 sched = WorkerPool ctxDone tasks 4 sched ∧
      (1 ≤ workers → (workerCount workers : Int) = workers) ∧
      (∀ s, exec tasks workers sched (PoolState.init ctxDone) = some s →
        s.workers.length ≤ workerCount workers ∧
          ((∀ i, s.pc ≠ .spawn i) → s.workers.length = workerCount workers)) := by
  have h4 : ∀ w : Int, w < 1 → workerCount w = workerCount 4 := by
    intro w hw
    simp [workerCount, hw]
  have heq : ∀ w : Int, w < 1 →
      WorkerPool ctxDone tasks w sched = WorkerPool ctxDone tasks 4 sched := by
    intro w hw
    unfold WorkerPool
    rw [exec_workerCount tasks w 4 (h4 w hw)]
  refine ⟨fun hw => ⟨by simp [workerCount, hw], heq workers hw⟩, heq 0 (by decide), ?_, ?_⟩
  · intro hw
    unfold workerCount
    rw [if_neg (by omega)]
    omega
  · intro s he
    have hinv := exec_inv tasks workers sched _ s (init_inv tasks workers ctxDone) he
    cases hp : s.pc with
    | spawn i =>
      have := hinv.spawn i hp
      exact ⟨by omega, fun hne => absurd rfl (hne i)⟩
    | feed k =>
      have := (hinv.feed k hp).1
      exact ⟨by omega, fun _ => this⟩
    | collect i =>
      have := (hinv.collect i hp).1
      exact ⟨by omega, fun _ => this⟩
    | returned =>
      have := (hinv.returned hp).1
      exact ⟨by omega, fun _ => this⟩

/-- Witness of C4: with `workers = 0` and with `workers = -3` four workers are
started, worker 3 can take a task, and the run returns what `workers = 4` returns. -/
theorem WorkerPool_default_worker_count_witness :
    workerCount 0 = 4 ∧ workerCount (-3) = 4 ∧ ((workerCount 7 : Nat) : Int) = 7 ∧
      WorkerPool false cubeTasks 0 cancelSchedule = some [8] ∧
      WorkerPool false cubeTasks (-3) cancelSchedule = WorkerPool false cubeTasks 4 cancelSchedule ∧
      WorkerPool false cubeTasks 4 cancelSchedule = some [8] :=
  ⟨((WorkerPool_default_worker_count false cubeTasks 0 cancelSchedule).1 (by decide)).1,
    ((WorkerPool_default_worker_count false cubeTasks (-3) cancelSchedule).1 (by decide)).1,
    (WorkerPool_default_worker_count false cubeTasks 7 cancelSchedule).2.2.1 (by decide),
    by decide,
    ((WorkerPool_default_worker_count false cubeTasks (-3) cancelSchedule).1 (by decide)).2,
    by decide⟩

end Core
